import Mathlib

/-!
Verification of the PhraseTools phrase-collection engine.

Shallow embedding of the Python sources (`main.py`, `main_merged_qt5.py`,
`main_merged.py`).  Phrase entries are `(text, frequency)` pairs, embedded
as `String × Nat`.  Python strings are modelled through their character
lists; `str.lower()`, `str.strip()` and `str.split()` are modelled by
`pyLower`, `pyStrip` and `pyWords` below, restricted to the Latin/Cyrillic
character domain this program works with.
-/

namespace PhraseTools

/-- One phrase entry: `(text, frequency)` as used throughout the sources. -/
abbrev Entry := String × Nat

/-- Characters recognised by Python's `str.strip()` / `\s`:
space, tab, newline, carriage return, vertical tab, form feed. -/
def isPySpace (c : Char) : Bool :=
  c == ' ' || c == '\t' || c == '\n' || c == '\r' || c == '\x0b' || c == '\x0c'

/-- ASCII letter. -/
def isAsciiLetter (c : Char) : Bool :=
  ('a' ≤ c && c ≤ 'z') || ('A' ≤ c && c ≤ 'Z')

/-- Cyrillic letter in the basic ranges а-я, А-Я plus Ё/ё
(the script domain of this program). -/
def isCyrLetter (c : Char) : Bool :=
  ('а' ≤ c && c ≤ 'я') || ('А' ≤ c && c ≤ 'Я') || c == 'Ё' || c == 'ё'

/-- ASCII digit. -/
def isAsciiDigit (c : Char) : Bool :=
  '0' ≤ c && c ≤ '9'

/-- Python `str.lower()` on one character, restricted to the ASCII and
basic Cyrillic ranges (the program's domain): `A`-`Z`, `А`-`Я` and `Ё`
are shifted to their lowercase forms, everything else is unchanged. -/
def pyCharLower (c : Char) : Char :=
  if 'A' ≤ c && c ≤ 'Z' then Char.ofNat (c.toNat + 32)
  else if 'А' ≤ c && c ≤ 'Я' then Char.ofNat (c.toNat + 32)
  else if c == 'Ё' then 'ё'
  else c

/-- Python `str.lower()` (character-wise over the string). -/
def pyLower (s : String) : String :=
  String.mk (s.data.map pyCharLower)

/-- Python `str.strip()`: drop leading and trailing whitespace. -/
def pyStripChars (l : List Char) : List Char :=
  ((l.dropWhile isPySpace).reverse.dropWhile isPySpace).reverse

/-- Python `str.strip()` on strings. -/
def pyStrip (s : String) : String :=
  String.mk (pyStripChars s.data)

/-- Helper for `pyWords`: accumulates the current word (reversed) while
scanning; words are maximal runs of non-whitespace characters. -/
def pyWordsAux : List Char → List Char → List String
  | [], acc => if acc.isEmpty then [] else [String.mk acc.reverse]
  | c :: t, acc =>
    if isPySpace c then
      if acc.isEmpty then pyWordsAux t [] else String.mk acc.reverse :: pyWordsAux t []
    else
      pyWordsAux t (c :: acc)

/-- Python `str.split()` with no argument: split on runs of whitespace,
discarding empty words. -/
def pyWords (s : String) : List String :=
  pyWordsAux s.data []

/-!
`HistoryManager` (identical in `main.py` lines 51-96 and
`main_merged_qt5.py` lines 407-450): a `deque(maxlen=max_history)` of
snapshots plus a cursor `current_index` that starts at `-1`.
`copy.deepcopy` on snapshots is the identity in this embedding (entries
are immutable values here); the deque's `maxlen` eviction is modelled by
dropping the head when an append overflows the capacity.
-/

/-- One history snapshot: a full copy of a list's `(text, frequency)` data. -/
abbrev Snapshot := List Entry

/-- State of `HistoryManager.__init__(max_history)`. -/
structure HistoryManager where
  maxHistory : Nat
  history : List Snapshot
  currentIndex : Int
  initialState : Option Snapshot
deriving Repr, DecidableEq

/-- `HistoryManager(max_history)`: empty deque, cursor `-1`. -/
def HistoryManager.new (maxHistory : Nat := 50) : HistoryManager :=
  { maxHistory := maxHistory, history := [], currentIndex := -1, initialState := none }

/-- `set_initial_state`: clear the deque, keep a copy of the state as the
single snapshot, cursor `0`. -/
def HistoryManager.set_initial_state (h : HistoryManager) (state : Snapshot) : HistoryManager :=
  { h with history := [state], currentIndex := 0, initialState := some state }

/-- `add_state`: pop from the right while `len(history) > current_index + 1`
(this truncates the redo branch), append the new snapshot (the deque evicts
its oldest element when `maxlen` is exceeded), and point the cursor at the
last element. -/
def HistoryManager.add_state (h : HistoryManager) (state : Snapshot) : HistoryManager :=
  let kept := h.history.take (h.currentIndex + 1).toNat
  let appended := kept ++ [state]
  let bounded := if h.maxHistory < appended.length then appended.drop 1 else appended
  { h with history := bounded, currentIndex := (bounded.length : Int) - 1 }

/-- `undo`: when `current_index > 0`, decrement the cursor and return a copy
of the snapshot now under it; otherwise return `None` and leave the state
alone. -/
def HistoryManager.undo (h : HistoryManager) : Option Snapshot × HistoryManager :=
  if 0 < h.currentIndex then
    (h.history.get? (h.currentIndex - 1).toNat, { h with currentIndex := h.currentIndex - 1 })
  else
    (none, h)

/-- `redo`: when `current_index < len(history) - 1`, increment the cursor and
return a copy of the snapshot now under it; otherwise return `None`. -/
def HistoryManager.redo (h : HistoryManager) : Option Snapshot × HistoryManager :=
  if h.currentIndex < (h.history.length : Int) - 1 then
    (h.history.get? (h.currentIndex + 1).toNat, { h with currentIndex := h.currentIndex + 1 })
  else
    (none, h)

/-- `can_undo`. -/
def HistoryManager.can_undo (h : HistoryManager) : Bool :=
  0 < h.currentIndex

/-- `can_redo`. -/
def HistoryManager.can_redo (h : HistoryManager) : Bool :=
  h.currentIndex < (h.history.length : Int) - 1

/-!
`PhraseProcessor` static methods (`main.py` lines 99-212; the
`main_merged_qt5.py` copy at lines 463-564 is identical except for
`transliterate_phrases` and `filter_by_stop_words`, noted below).
-/

/-- Lexicographic comparison of character lists by code point;
models Python string `<=` as used by `sorted`. -/
def charListLe : List Char → List Char → Bool
  | [], _ => true
  | _ :: _, [] => false
  | a :: as, b :: bs =>
    if a.toNat < b.toNat then true
    else if b.toNat < a.toNat then false
    else charListLe as bs

/-- Python string `<=` on code points. -/
def pyStrLe (a b : String) : Bool :=
  charListLe a.data b.data

namespace PhraseProcessor

/-- Recursion behind `remove_duplicates`: `seen` is the set of
`phrase.lower().strip()` keys already emitted; a new entry is appended
as `(phrase.strip(), freq)`. -/
def dedupGo (seen : List String) : List Entry → List Entry
  | [] => []
  | e :: rest =>
    if pyStrip (pyLower e.1) ∈ seen then dedupGo seen rest
    else (pyStrip e.1, e.2) :: dedupGo (pyStrip (pyLower e.1) :: seen) rest

/-- `remove_duplicates`: first-occurrence dedup keyed on
`phrase.lower().strip()`, emitting `phrase.strip()` with the frequency. -/
def remove_duplicates (ps : List Entry) : List Entry :=
  dedupGo [] ps

/-- `sort_phrases_alphabetically`: Python `sorted(phrases, key=lambda x:
x[0].lower(), reverse=reverse)` — a stable mergesort by the lowercased
text; `reverse=True` compares in the flipped order (stability on equal
keys preserved, as in CPython). -/
def sort_phrases_alphabetically (ps : List Entry) (reverse : Bool) : List Entry :=
  if reverse then ps.mergeSort (fun x y => pyStrLe (pyLower y.1) (pyLower x.1))
  else ps.mergeSort (fun x y => pyStrLe (pyLower x.1) (pyLower y.1))

/-- `sort_phrases_by_frequency`: Python `sorted(phrases, key=lambda x:
x[1], reverse=reverse)`. -/
def sort_phrases_by_frequency (ps : List Entry) (reverse : Bool) : List Entry :=
  if reverse then ps.mergeSort (fun x y => decide (y.2 ≤ x.2))
  else ps.mergeSort (fun x y => decide (x.2 ≤ y.2))

/-- Test of `re.search('[а-яА-Я]', phrase)` used by `transliterate_phrases`
in `main.py` (note the regex ranges do not include Ё/ё). -/
def hasCyr (p : String) : Bool :=
  p.data.any (fun c => ('а' ≤ c && c ≤ 'я') || ('А' ≤ c && c ≤ 'Я'))

/-- One entry of `transliterate_phrases` (`main.py` lines 124-144).
`tr b s` models the external `translit(s, 'ru', reversed=b)` call;
`none` models the call raising, which the `except` clause turns into
passing the original entry through. -/
def translitEntry (tr : Bool → String → Option String) (reverse : Bool) (e : Entry) : Entry :=
  if reverse then
    if hasCyr e.1 then e else ((tr false e.1).getD e.1, e.2)
  else
    if hasCyr e.1 then ((tr true e.1).getD e.1, e.2) else e

/-- `transliterate_phrases` (`main.py` variant): per-entry best-effort
conversion with a per-entry `try`/`except` that passes the original
entry through on failure. -/
def transliterate_phrases (tr : Bool → String → Option String) (ps : List Entry)
    (reverse : Bool) : List Entry :=
  ps.map (translitEntry tr reverse)

/-- `filter_by_stop_words` (`main.py` lines 146-157, whole-token mode):
an entry is removed iff some whitespace token of its lowercased text is
in the stop-word set; an empty stop-word set returns the input as is. -/
def filter_by_stop_words (ps : List Entry) (stopWords : List String) : List Entry :=
  if stopWords.isEmpty then ps
  else ps.filter (fun e => !((pyWords (pyLower e.1)).any (fun w => stopWords.contains w)))

/-- Character class of Python's `\w` (letters, digits, underscore),
restricted to the ASCII/Cyrillic domain of this program. -/
def isWordChar (c : Char) : Bool :=
  isAsciiLetter c || isCyrLetter c || isAsciiDigit c || c == '_'

/-- Collapse of every whitespace run into a single `' '`; models
`re.sub(r'\s+', ' ', s)`. -/
def collapseWs : List Char → List Char
  | [] => []
  | [c] => if isPySpace c then [' '] else [c]
  | c :: d :: t =>
    if isPySpace c && isPySpace d then collapseWs (d :: t)
    else (if isPySpace c then ' ' else c) :: collapseWs (d :: t)

/-- Text cleanup of `remove_special_chars`: `re.sub(r'[^\w\s]', ' ', p)`
then `re.sub(r'\s+', ' ', ·).strip()`. -/
def cleanText (p : String) : String :=
  String.mk (pyStripChars (collapseWs
    (p.data.map (fun c => if isWordChar c || isPySpace c then c else ' '))))

/-- `remove_special_chars`: clean each text and drop entries whose text
becomes empty. -/
def remove_special_chars : List Entry → List Entry
  | [] => []
  | e :: rest =>
    if cleanText e.1 = "" then remove_special_chars rest
    else (cleanText e.1, e.2) :: remove_special_chars rest

/-- Python `str.upper()` on one character (ASCII/Cyrillic domain). -/
def pyCharUpper (c : Char) : Char :=
  if 'a' ≤ c && c ≤ 'z' then Char.ofNat (c.toNat - 32)
  else if 'а' ≤ c && c ≤ 'я' then Char.ofNat (c.toNat - 32)
  else if c == 'ё' then 'Ё'
  else c

/-- Python `str.upper()` (character-wise). -/
def pyUpper (s : String) : String :=
  String.mk (s.data.map pyCharUpper)

/-- `convert_case`: map every text to upper or lower case. -/
def convert_case (ps : List Entry) (toUpper : Bool) : List Entry :=
  ps.map (fun e => if toUpper then (pyUpper e.1, e.2) else (pyLower e.1, e.2))

/-- `remove_long_phrases`: keep entries with `len(phrase.split()) <=
max_words`. -/
def remove_long_phrases (ps : List Entry) (maxWords : Nat) : List Entry :=
  ps.filter (fun e => (pyWords e.1).length ≤ maxWords)

/-- Qualifying tokens of `group_phrases`: whitespace tokens of the
lowercased text that are longer than 3 characters (in phrase order,
duplicates kept — they feed the `word_freq[word] += 1` loop). -/
def qualTokens (p : String) : List String :=
  (pyWords (pyLower p)).filter (fun w => 3 < w.length)

/-- Key insertion of a Python dict: first insertion fixes the position,
later insertions of the same key are no-ops (only keys matter to
`max(word_freq.keys(), key=len)`, so the counts are not modelled). -/
def insertKey (ks : List String) (w : String) : List String :=
  if w ∈ ks then ks else ks ++ [w]

/-- Keys of `word_freq` in dict insertion order: first occurrences of the
qualifying tokens. -/
def dictKeys (toks : List String) : List String :=
  toks.foldl insertKey []

/-- Python `max(keys, key=len)` given a first element and the rest: keeps
the current best and replaces it only on a strictly longer candidate, so
the first key attaining the maximal length wins. -/
def pyMaxByLen (b : String) (t : List String) : String :=
  t.foldl (fun best k => if best.length < k.length then k else best) b

/-- Group key chosen by `group_phrases` for one phrase, `none` when
`word_freq` stays empty. -/
def groupKeyOf (p : String) : Option String :=
  match dictKeys (qualTokens p) with
  | [] => none
  | k :: ks => some (pyMaxByLen k ks)

/-- Append of an entry to a key's bucket in a `defaultdict(list)`,
preserving dict insertion order of the keys. -/
def addToGroup : List (String × List Entry) → String → Entry → List (String × List Entry)
  | [], k, e => [(k, [e])]
  | kv :: rest, k, e =>
    if kv.1 = k then (kv.1, kv.2 ++ [e]) :: rest else kv :: addToGroup rest k e

/-- Bucket of a key in the grouping result (empty when absent). -/
def lookupGroup : List (String × List Entry) → String → List Entry
  | [], _ => []
  | kv :: rest, k => if kv.1 = k then kv.2 else lookupGroup rest k

/-- One loop iteration of `group_phrases`: the entry goes to the bucket
of its group key, or to the reserved `"другое"` bucket when no token
qualifies. -/
def groupStep (groups : List (String × List Entry)) (e : Entry) : List (String × List Entry) :=
  match groupKeyOf e.1 with
  | some k => addToGroup groups k e
  | none => addToGroup groups "другое" e

/-- `group_phrases` (`main.py` lines 192-212). -/
def group_phrases (ps : List Entry) : List (String × List Entry) :=
  ps.foldl groupStep []

end PhraseProcessor

/-!
`Folder` (`main_merged_qt5.py` lines 386-404; `main_merged.py` lines
55-68 is identical): a named, order-preserving container of entries.
-/

/-- Folder model: `name` plus the ordered `phrases` member list. -/
structure Folder where
  name : String
  phrases : List Entry
deriving Repr, DecidableEq

/-- `Folder.add_phrase`: append unless the exact `(text, frequency)`
tuple is already a member. -/
def Folder.add_phrase (fol : Folder) (phrase : String) (frequency : Nat) : Folder :=
  if (phrase, frequency) ∈ fol.phrases then fol
  else { fol with phrases := fol.phrases ++ [(phrase, frequency)] }

/-- `Folder.remove_phrase`: drop every member whose text equals the
argument, regardless of frequency. -/
def Folder.remove_phrase (fol : Folder) (phrase : String) : Folder :=
  { fol with phrases := fol.phrases.filter (fun e => e.1 ≠ phrase) }

/-!
`MainWindow.on_phrases_to_folder` (`main_merged_qt5.py` lines 2177-2202),
restricted to the state it touches: the folder mapping of the addressed
scope (`FoldersWidget.add_phrases_to_folder`, lines 1764-1770) and the
current list's data.  The widget/`PhraseList` mirroring steps
(`get_folders`, `update_table`, count and grouping refreshes) only copy or
re-render this state.
-/

/-- Folder mapping (a Python dict name → Folder) and the current list's
data, as touched by `on_phrases_to_folder`. -/
structure TabState where
  folders : List (String × Folder)
  data : List Entry
deriving Repr, DecidableEq

/-- Python `folder_name in self.folders`. -/
def containsFolder (fs : List (String × Folder)) (n : String) : Bool :=
  fs.any (fun kv => kv.1 == n)

/-- Python `self.folders[n]` as an option. -/
def lookupFolder : List (String × Folder) → String → Option Folder
  | [], _ => none
  | kv :: rest, n => if kv.1 = n then some kv.2 else lookupFolder rest n

/-- In-place mutation of the folder object stored under a dict key. -/
def updateFolder (fs : List (String × Folder)) (n : String) (g : Folder → Folder) :
    List (String × Folder) :=
  fs.map (fun kv => if kv.1 = n then (kv.1, g kv.2) else kv)

/-- `FoldersWidget.add_phrases_to_folder`: for each `(folder_name, phrase,
freq)` triple, `add_phrase` it to that folder when the folder exists. -/
def add_phrases_to_folder (fs : List (String × Folder))
    (data : List (String × String × Nat)) : List (String × Folder) :=
  data.foldl
    (fun fs d =>
      if containsFolder fs d.1 then updateFolder fs d.1 (fun fol => fol.add_phrase d.2.1 d.2.2)
      else fs)
    fs

/-- `MainWindow.on_phrases_to_folder`: build the `(folder_name, p, f)`
triples and add them to the target folder; when `is_move`, additionally
drop from the current data every entry whose `p.lower().strip()` is in the
set of the moved phrases' `p.lower().strip()` keys. -/
def on_phrases_to_folder (st : TabState) (folderName : String) (phrases : List Entry)
    (isMove : Bool) : TabState :=
  let fs := add_phrases_to_folder st.folders (phrases.map (fun e => (folderName, e.1, e.2)))
  if isMove then
    { folders := fs,
      data := st.data.filter (fun e =>
        !(phrases.map (fun q => pyStrip (pyLower q.1))).contains (pyStrip (pyLower e.1))) }
  else
    { folders := fs, data := st.data }

/-!
`MainWindow.load_session` (`main_merged_qt5.py` lines 2424-2457),
restricted to the workspace state named by the spec: `self.phrase_lists`,
`self.global_stop_words`, `self.global_folders` and the active-tab index.
The `try` block first assigns all three fields from the unpacked
`pickle.load` 4-tuple, then clears and rebuilds the tabs by iterating
`self.phrase_lists.items()`; any exception along the way is caught by the
single `except`, which only shows an error dialog.  A pickle payload is an
arbitrary object, so the slot a load fills is modelled as either a proper
name → list mapping or some other object on which the rebuild loop's
`.items()` call raises.
-/

/-- Per-list session payload (the fields of a pickled `PhraseList` that
this development tracks). -/
structure PhraseListData where
  phrases : List Entry
  stopWords : List String
deriving Repr, DecidableEq

/-- Value found in the first slot of a pickled session tuple: either a
proper dict of `PhraseList`s or any other pickled object. -/
inductive PickledLists where
  | dict (m : List (String × PhraseListData))
  | other
deriving Repr, DecidableEq

/-- The workspace fields `load_session` reads and writes. -/
structure Workspace where
  phraseLists : PickledLists
  globalStopWords : List String
  globalFolders : List (String × Folder)
  activeIndex : Nat
deriving Repr, DecidableEq

/-- Outcome of `open(file_path, 'rb')` + `pickle.load(f)`: either the read
or unpickling raised (before any assignment), or it produced a 4-tuple
that is then unpacked into the workspace fields. -/
inductive LoadResult where
  | readError
  | payload (lists : PickledLists) (stops : List String)
      (folders : List (String × Folder)) (idx : Nat)
deriving Repr, DecidableEq

/-- `MainWindow.load_session`: returns the workspace after the call and
whether the `except` branch reported an error.  On `readError` nothing was
assigned; on a payload the three fields are assigned first, and only then
does the rebuild loop run — when `lists` is not a mapping, iterating
`.items()` raises and the `except` fires with the fields already
overwritten.  On success the active index becomes
`min(current_index, count - 1)` when any tab exists. -/
def load_session (ws : Workspace) (r : LoadResult) : Workspace × Bool :=
  match r with
  | .readError => (ws, true)
  | .payload lists stops folders idx =>
    let ws1 : Workspace :=
      { phraseLists := lists, globalStopWords := stops, globalFolders := folders,
        activeIndex := ws.activeIndex }
    match lists with
    | .dict m =>
      ({ ws1 with activeIndex := if 0 < m.length then min idx (m.length - 1) else ws.activeIndex },
        false)
    | .other => (ws1, true)

/-!
Reference definitions written from the specification's wording, used to
compare the source-derived functions against the spec (refinement).
-/

/-- Letter in the program's script domain (ASCII or Cyrillic). -/
def isLetterChar (c : Char) : Bool :=
  isAsciiLetter c || isCyrLetter c

/-- Spec wording for `removeDuplicates`: keep exactly the first occurrence
of each trimmed-lowercased text class, with its original entry, in input
order. -/
def specKeepFirst (seen : List String) : List Entry → List Entry
  | [] => []
  | e :: rest =>
    if pyStrip (pyLower e.1) ∈ seen then specKeepFirst seen rest
    else e :: specKeepFirst (pyStrip (pyLower e.1) :: seen) rest

/-- Spec wording for whitespace collapsing: each run of whitespace becomes
one single space (recursing past the whole run at once). -/
def specCollapse : List Char → List Char
  | [] => []
  | c :: t =>
    if isPySpace c then ' ' :: specCollapse (t.dropWhile isPySpace)
    else c :: specCollapse t
termination_by l => l.length
decreasing_by
  · simp only [List.length_cons]
    exact Nat.lt_succ_of_le (List.dropWhile_sublist _).length_le
  · simp

/-- Amended spec wording for the `removeSpecialChars` cleanup: every
character that is not a letter, digit, underscore or whitespace becomes a
space; whitespace runs collapse to one space; the result is trimmed. -/
def specCleanText (p : String) : String :=
  String.mk (pyStripChars (specCollapse
    (p.data.map (fun c =>
      if isLetterChar c || (isAsciiDigit c || (c == '_' || isPySpace c)) then c else ' '))))

/-- Amended spec wording for `removeSpecialChars` as a whole: clean every
text, drop entries that become empty, keep frequencies and order. -/
def specRemoveSpecialChars (ps : List Entry) : List Entry :=
  ps.filterMap (fun e =>
    if specCleanText e.1 = "" then none else some (specCleanText e.1, e.2))

/-- Largest length among a list of tokens. -/
def maxLenOf (ts : List String) : Nat :=
  ts.foldl (fun m k => max m k.length) 0

/-- Spec wording for the grouping key: among the tokens of the lowercased
text that are longer than 3 characters, the longest one, ties broken by
the token occurring first in the phrase — i.e. the first token attaining
the maximal length. -/
def specGroupKey (p : String) : Option String :=
  (PhraseProcessor.qualTokens p).find?
    (fun t => t.length == maxLenOf (PhraseProcessor.qualTokens p))

/-- Characterization used for the grouping proof: `x` sits at a position
of `l` with every earlier element strictly shorter and every later
element no longer — i.e. `x` is the first element of `l` attaining the
maximal length. -/
def IsFirstMax (l : List String) (x : String) : Prop :=
  ∃ p s, l = p ++ x :: s
    ∧ (∀ y ∈ p, y.length < x.length)
    ∧ (∀ y ∈ s, y.length ≤ x.length)

end PhraseTools

namespace PhraseTools

/-- C1: after `setInitialState(S0)`, `addState(S1)`, `addState(S2)`, a call
to `undo()` returns a copy equal to S1 and a subsequent `redo()` returns a
copy equal to S2; if instead `addState(S3)` is called immediately after that
`undo()`, a following `redo()` returns nothing: the undone S2 branch is
discarded. -/
theorem history_undo_redo_branch (S0 S1 S2 S3 : Snapshot) :
    (((((HistoryManager.new 50).set_initial_state S0).add_state S1).add_state S2).undo.1
        = some S1)
    ∧ (((((HistoryManager.new 50).set_initial_state S0).add_state S1).add_state S2).undo.2.redo.1
        = some S2)
    ∧ ((((((HistoryManager.new 50).set_initial_state S0).add_state S1).add_state S2).undo.2.add_state
          S3).redo.1
        = none) := by
  refine ⟨?_, ?_, ?_⟩ <;>
    simp [HistoryManager.new, HistoryManager.set_initial_state, HistoryManager.add_state,
      HistoryManager.undo, HistoryManager.redo]

/-- C5: `filter_by_stop_words` in whole-token mode, on the stop words
`{"cheap"}` and the input `[("cheap flights", 10), ("flights", 5)]`,
excludes only the first entry and returns exactly `[("flights", 5)]`. -/
theorem filter_whole_token_cheap_flights :
    PhraseProcessor.filter_by_stop_words [("cheap flights", 10), ("flights", 5)] ["cheap"]
      = [("flights", 5)] := by
  decide

/-- C8: `Folder.add_phrase` is a no-op when the exact `(text, frequency)`
tuple is already a member — adding the identical tuple twice yields one
member — while two entries with the same text but different frequencies
are distinct members and coexist. -/
theorem folder_add_phrase_exact_tuple_dedup :
    ∀ (fol : Folder) (p : String) (f g : Nat),
      ((fol.add_phrase p f).add_phrase p f = fol.add_phrase p f)
      ∧ ((((Folder.mk fol.name []).add_phrase p f).add_phrase p f).phrases = [(p, f)])
      ∧ (f ≠ g →
          (p, f) ∈ ((fol.add_phrase p f).add_phrase p g).phrases
          ∧ (p, g) ∈ ((fol.add_phrase p f).add_phrase p g).phrases) := by
  intro fol p f g
  have hmem : (p, f) ∈ (fol.add_phrase p f).phrases := by
    by_cases h : (p, f) ∈ fol.phrases <;> simp [Folder.add_phrase, h]
  set fol1 := fol.add_phrase p f with hf1
  refine ⟨?_, ?_, ?_⟩
  · simp [Folder.add_phrase, hmem]
  · simp [Folder.add_phrase]
  · intro hfg
    by_cases h2 : (p, g) ∈ fol1.phrases
    · simp only [Folder.add_phrase, h2, if_pos]
      exact ⟨hmem, trivial⟩
    · simp only [Folder.add_phrase, h2, if_neg, not_false_iff]
      refine ⟨?_, ?_⟩
      · exact List.mem_append_left _ hmem
      · exact List.mem_append_right _ (by simp)

/-- C8 witness: on the empty folder, adding `("x", 1)` and then `("x", 2)`
leaves both as members. -/
theorem folder_add_phrase_exact_tuple_dedup_witness :
    ((("x", 1) : Entry) ∈ (((Folder.mk "A" []).add_phrase "x" 1).add_phrase "x" 2).phrases)
    ∧ ((("x", 2) : Entry) ∈ (((Folder.mk "A" []).add_phrase "x" 1).add_phrase "x" 2).phrases) :=
  (folder_add_phrase_exact_tuple_dedup (Folder.mk "A" []) "x" 1 2).2.2 (by decide)

/-- C3 counterexample: on `[(" a", 1)]` the kept entry's text is the
trimmed `"a"`, not the exact original text `" a"` the claim requires. -/
theorem remove_duplicates_trims_kept_text :
    PhraseProcessor.remove_duplicates [(" a", 1)] = [("a", 1)]
    ∧ PhraseProcessor.remove_duplicates [(" a", 1)] ≠ [(" a", 1)] := by
  decide

/-- Helper: `dedupGo` emits the first occurrence of each
trimmed-lowercased class with the text trimmed. -/
theorem dedupGo_eq_keepFirst (ps : List Entry) :
    ∀ seen, PhraseProcessor.dedupGo seen ps
      = (specKeepFirst seen ps).map (fun e => (pyStrip e.1, e.2)) := by
  induction ps with
  | nil => intro seen; rfl
  | cons e rest ih =>
    intro seen
    by_cases h : pyStrip (pyLower e.1) ∈ seen <;>
      simp [PhraseProcessor.dedupGo, specKeepFirst, h, ih]

/-- C3 (amended): `remove_duplicates` deduplicates on trimmed, lowercased
text, keeping for each class exactly the first occurrence with its
*trimmed* original text and its frequency, preserving input order. -/
theorem remove_duplicates_keeps_first_trimmed :
    ∀ ps : List Entry,
      PhraseProcessor.remove_duplicates ps
        = (specKeepFirst [] ps).map (fun e => (pyStrip e.1, e.2)) := by
  intro ps
  exact dedupGo_eq_keepFirst ps []

/-- C9 counterexample: `remove_special_chars` keeps the underscore of
`"a_b"` (Python's `\w` matches it), whereas the claim requires every
non-letter, non-digit, non-whitespace character to become a space. -/
theorem remove_special_chars_keeps_underscore :
    PhraseProcessor.remove_special_chars [("a_b", 1)] = [("a_b", 1)]
    ∧ PhraseProcessor.remove_special_chars [("a_b", 1)] ≠ [("a b", 1)] := by
  decide

/-- C2 (code bug): a session file whose pickle payload is a 4-tuple with a
non-mapping first element makes `load_session` report an error, yet the
workspace is left overwritten rather than exactly as it was. -/
theorem load_session_clobbers_on_bad_payload :
    (load_session
        { phraseLists := .dict [("tab", { phrases := [("a", 1)], stopWords := [] })],
          globalStopWords := ["x"], globalFolders := [], activeIndex := 0 }
        (.payload .other ["y"] [] 0)).2 = true
    ∧ (load_session
        { phraseLists := .dict [("tab", { phrases := [("a", 1)], stopWords := [] })],
          globalStopWords := ["x"], globalFolders := [], activeIndex := 0 }
        (.payload .other ["y"] [] 0)).1
      ≠ { phraseLists := .dict [("tab", { phrases := [("a", 1)], stopWords := [] })],
          globalStopWords := ["x"], globalFolders := [], activeIndex := 0 } := by
  decide

/-- C6: `transliterate_phrases` is total (one output entry per input
entry, so no input can make it raise), forward conversion touches only
entries containing Cyrillic letters — an entry already in the target
Latin script passes through unchanged — and a per-entry conversion
failure (modelled by the external `translit` returning `none`) passes the
original entry through unchanged. -/
theorem transliterate_fail_soft :
    ∀ (tr : Bool → String → Option String) (ps : List Entry) (reverse : Bool),
      (PhraseProcessor.transliterate_phrases tr ps reverse).length = ps.length
      ∧ (∀ (i : Nat) (p : String) (f : Nat),
          ps[i]? = some (p, f) → PhraseProcessor.hasCyr p = false →
          (PhraseProcessor.transliterate_phrases tr ps false)[i]? = some (p, f))
      ∧ (∀ (i : Nat) (p : String) (f : Nat),
          ps[i]? = some (p, f) → tr true p = none →
          (PhraseProcessor.transliterate_phrases tr ps false)[i]? = some (p, f)) := by
  intro tr ps reverse
  refine ⟨by simp [PhraseProcessor.transliterate_phrases], ?_, ?_⟩
  · intro i p f hi hc
    simp [PhraseProcessor.transliterate_phrases, List.getElem?_map, hi,
      PhraseProcessor.translitEntry, hc]
  · intro i p f hi ht
    by_cases hc : PhraseProcessor.hasCyr p <;>
      simp [PhraseProcessor.transliterate_phrases, List.getElem?_map, hi,
        PhraseProcessor.translitEntry, hc, ht]

/-- C6 witness: with an always-failing conversion, the Latin-only entry
`("abc", 1)` passes through unchanged. -/
theorem transliterate_fail_soft_witness :
    PhraseProcessor.hasCyr "abc" = false
    ∧ (PhraseProcessor.transliterate_phrases (fun _ _ => none) [("abc", 1)] false)[0]?
        = some ("abc", 1) :=
  ⟨by decide,
    (transliterate_fail_soft (fun _ _ => none) [("abc", 1)] false).2.1 0 "abc" 1 rfl (by decide)⟩

/-- Helper: the two formulations of whitespace-run collapsing agree. -/
theorem collapseWs_eq_specCollapse (l : List Char) :
    PhraseProcessor.collapseWs l = specCollapse l := by
  induction l with
  | nil => simp [PhraseProcessor.collapseWs, specCollapse]
  | cons c t ih =>
    cases t with
    | nil =>
      by_cases hc : isPySpace c <;> simp [PhraseProcessor.collapseWs, specCollapse, hc]
    | cons d t2 =>
      by_cases hc : isPySpace c
      · by_cases hd : isPySpace d <;>
          simp [PhraseProcessor.collapseWs, specCollapse, hc, hd, ih, List.dropWhile_cons]
      · simp [PhraseProcessor.collapseWs, specCollapse, hc, ih]

/-- Helper: the source's `\w`-or-whitespace keep predicate equals the
amended spec's letter/digit/underscore/whitespace predicate. -/
theorem wordCharKeep_eq (c : Char) :
    (if PhraseProcessor.isWordChar c || isPySpace c then c else ' ')
      = (if isLetterChar c || (isAsciiDigit c || (c == '_' || isPySpace c)) then c else ' ') := by
  have h : (PhraseProcessor.isWordChar c || isPySpace c)
      = (isLetterChar c || (isAsciiDigit c || (c == '_' || isPySpace c))) := by
    simp [PhraseProcessor.isWordChar, isLetterChar, Bool.or_assoc]
  rw [h]

/-- Helper: the source cleanup pipeline equals the amended spec cleanup. -/
theorem cleanText_eq_spec (p : String) :
    PhraseProcessor.cleanText p = specCleanText p := by
  have hmap : (fun c => if PhraseProcessor.isWordChar c || isPySpace c then c else ' ')
      = (fun c => if isLetterChar c || (isAsciiDigit c || (c == '_' || isPySpace c)) then c
          else ' ') :=
    funext wordCharKeep_eq
  unfold PhraseProcessor.cleanText specCleanText
  rw [collapseWs_eq_specCollapse, hmap]

/-- C9 (amended): `remove_special_chars` replaces every character that is
not a letter, digit, underscore or whitespace with a space, collapses
whitespace runs to a single space, trims, and drops entries whose text
becomes empty; survivors keep their frequency and relative order. -/
theorem remove_special_chars_spec :
    ∀ ps : List Entry, PhraseProcessor.remove_special_chars ps = specRemoveSpecialChars ps := by
  intro ps
  induction ps with
  | nil => rfl
  | cons e rest ih =>
    have hs := cleanText_eq_spec e.1
    by_cases h : PhraseProcessor.cleanText e.1 = ""
    · have h2 : specCleanText e.1 = "" := hs ▸ h
      simp [PhraseProcessor.remove_special_chars, specRemoveSpecialChars, h, h2, ih,
        List.filterMap_cons]
    · have h2 : ¬ specCleanText e.1 = "" := hs ▸ h
      simp [PhraseProcessor.remove_special_chars, specRemoveSpecialChars, h, h2, ih,
        List.filterMap_cons, hs]

/-- Helper: each surviving entry of `remove_special_chars` is the cleaned
image of the input entry it derives from (frequency kept). -/
theorem remove_special_chars_sublist (ps : List Entry) :
    List.Sublist (PhraseProcessor.remove_special_chars ps)
      (ps.map (fun e => (PhraseProcessor.cleanText e.1, e.2))) := by
  induction ps with
  | nil => simp [PhraseProcessor.remove_special_chars]
  | cons e rest ih =>
    by_cases h : PhraseProcessor.cleanText e.1 = ""
    · simp only [PhraseProcessor.remove_special_chars, h, if_pos, List.map_cons]
      exact ih.cons _
    · simp only [PhraseProcessor.remove_special_chars, h, if_neg, List.map_cons,
        not_false_iff]
      exact ih.cons₂ _

/-- Helper: `dedupGo` keeps a subsequence of the trimmed input, each
entry with its own frequency. -/
theorem dedupGo_sublist (ps : List Entry) :
    ∀ seen, List.Sublist (PhraseProcessor.dedupGo seen ps)
      (ps.map (fun e => (pyStrip e.1, e.2))) := by
  induction ps with
  | nil => intro seen; simp [PhraseProcessor.dedupGo]
  | cons e rest ih =>
    intro seen
    by_cases h : pyStrip (pyLower e.1) ∈ seen
    · simp only [PhraseProcessor.dedupGo, h, if_pos, List.map_cons]
      exact (ih seen).cons _
    · simp only [PhraseProcessor.dedupGo, h, if_neg, List.map_cons, not_false_iff]
      exact (ih _).cons₂ _

/-- C10: no `PhraseProcessor` operation alters a frequency: the sorts
permute the entries, the per-entry maps keep every frequency in place,
and the dropping operations keep a subsequence of the (per-entry
text-transformed) input, so each output entry carries exactly the
frequency of the input entry it derives from. -/
theorem processor_preserves_frequencies :
    ∀ (ps : List Entry) (tr : Bool → String → Option String) (r u : Bool) (m : Nat)
      (sw : List String),
      (PhraseProcessor.sort_phrases_alphabetically ps r).Perm ps
      ∧ (PhraseProcessor.sort_phrases_by_frequency ps r).Perm ps
      ∧ (PhraseProcessor.convert_case ps u).map Prod.snd = ps.map Prod.snd
      ∧ List.Sublist (PhraseProcessor.remove_special_chars ps)
          (ps.map (fun e => (PhraseProcessor.cleanText e.1, e.2)))
      ∧ List.Sublist (PhraseProcessor.remove_long_phrases ps m) ps
      ∧ (PhraseProcessor.transliterate_phrases tr ps r).map Prod.snd = ps.map Prod.snd
      ∧ List.Sublist (PhraseProcessor.filter_by_stop_words ps sw) ps
      ∧ List.Sublist (PhraseProcessor.remove_duplicates ps)
          (ps.map (fun e => (pyStrip e.1, e.2))) := by
  intro ps tr r u m sw
  refine ⟨?_, ?_, ?_, remove_special_chars_sublist ps, ?_, ?_, ?_, dedupGo_sublist ps []⟩
  · cases r <;> exact List.mergeSort_perm ps _
  · cases r <;> exact List.mergeSort_perm ps _
  · have he : (Prod.snd ∘ fun e : Entry =>
        if u then (PhraseProcessor.pyUpper e.1, e.2) else (pyLower e.1, e.2))
        = (Prod.snd : Entry → Nat) := by
      funext e; cases u <;> rfl
    simp only [PhraseProcessor.convert_case, List.map_map]
    rw [he]
  · exact List.filter_sublist _
  · have he : (Prod.snd ∘ PhraseProcessor.translitEntry tr r) = (Prod.snd : Entry → Nat) := by
      funext e
      unfold PhraseProcessor.translitEntry
      cases r <;> by_cases h : PhraseProcessor.hasCyr e.1 <;> simp [h]
    simp only [PhraseProcessor.transliterate_phrases, List.map_map]
    rw [he]
  · by_cases h : sw.isEmpty
    · simp only [PhraseProcessor.filter_by_stop_words, h, if_pos]
      exact List.Sublist.refl ps
    · simp only [PhraseProcessor.filter_by_stop_words, h, if_neg, Bool.not_eq_true,
        not_false_iff]
      exact List.filter_sublist _

/-- Helper: a folder member survives `add_phrase`. -/
theorem folder_mem_add_mono (fol : Folder) (p : String) (f : Nat) (e : Entry)
    (he : e ∈ fol.phrases) : e ∈ (fol.add_phrase p f).phrases := by
  by_cases h : (p, f) ∈ fol.phrases <;> simp [Folder.add_phrase, h, he]

/-- Helper: after `add_phrase p f` the tuple `(p, f)` is a member. -/
theorem folder_mem_add_self (fol : Folder) (p : String) (f : Nat) :
    (p, f) ∈ (fol.add_phrase p f).phrases := by
  by_cases h : (p, f) ∈ fol.phrases <;> simp [Folder.add_phrase, h]

/-- Helper: dict update is visible through lookup. -/
theorem lookupFolder_updateFolder (fs : List (String × Folder)) (n : String)
    (g : Folder → Folder) :
    lookupFolder (updateFolder fs n g) n = (lookupFolder fs n).map g := by
  induction fs with
  | nil => rfl
  | cons kv rest ih =>
    by_cases h : kv.1 = n
    · simp [lookupFolder, updateFolder, h]
    · simp only [lookupFolder, updateFolder, h, if_neg, not_false_iff, List.map]
      simpa [updateFolder] using ih

/-- Helper: a successful lookup means the key is present. -/
theorem contains_of_lookupFolder (fs : List (String × Folder)) (n : String) (fol : Folder)
    (h : lookupFolder fs n = some fol) : containsFolder fs n = true := by
  induction fs with
  | nil => simp [lookupFolder] at h
  | cons kv rest ih =>
    by_cases hk : kv.1 = n
    · simp [containsFolder, hk]
    · simp only [lookupFolder, hk, if_neg, not_false_iff] at h
      simpa [containsFolder] using Or.inr (by simpa [containsFolder] using ih h)

/-- Helper: folding the `(folder_name, phrase, freq)` triples of a phrase
batch into an existing folder keeps its old members and makes every batch
entry a member. -/
theorem add_phrases_fold_mem (fn : String) (qs : List Entry) :
    ∀ (fs : List (String × Folder)) (fol : Folder),
      lookupFolder fs fn = some fol →
      ∃ fol2,
        lookupFolder (add_phrases_to_folder fs (qs.map (fun e => (fn, e.1, e.2)))) fn = some fol2
        ∧ (∀ e, e ∈ fol.phrases → e ∈ fol2.phrases)
        ∧ (∀ q ∈ qs, q ∈ fol2.phrases) := by
  induction qs with
  | nil =>
    intro fs fol h
    exact ⟨fol, h, fun e he => he, by simp⟩
  | cons q rest ih =>
    intro fs fol h
    have hc : containsFolder fs fn = true := contains_of_lookupFolder fs fn fol h
    have hstep : lookupFolder (updateFolder fs fn (fun fol => fol.add_phrase q.1 q.2)) fn
        = some (fol.add_phrase q.1 q.2) := by
      rw [lookupFolder_updateFolder, h]; rfl
    obtain ⟨fol2, h2, hmono, hqs⟩ :=
      ih (updateFolder fs fn (fun fol => fol.add_phrase q.1 q.2)) (fol.add_phrase q.1 q.2) hstep
    refine ⟨fol2, ?_, ?_, ?_⟩
    · simpa [add_phrases_to_folder, hc] using h2
    · intro e he
      exact hmono e (folder_mem_add_mono fol q.1 q.2 e he)
    · intro q2 hq2
      rcases List.mem_cons.mp hq2 with hq2 | hq2
      · subst hq2
        exact hmono q2 (folder_mem_add_self fol q2.1 q2.2)
      · exact hqs q2 hq2

/-- Helper: the move step's filter predicate holds exactly when the
entry's trimmed, lowercased text matches none of the moved phrases. -/
theorem not_contains_moved_key_iff (phrases : List Entry) (x : String) :
    ((!(phrases.map (fun q => pyStrip (pyLower q.1))).contains x) = true)
      ↔ ∀ q ∈ phrases, x ≠ pyStrip (pyLower q.1) := by
  simp
  constructor <;> intro h a b hab hx <;> exact h a b hab hx.symm

/-- C7: copying phrases to an existing folder makes every selected
`(text, frequency)` pair a member of the target folder and leaves the
source list untouched; moving additionally removes from the source list
exactly the entries whose trimmed, lowercased text equals that of some
moved phrase. -/
theorem phrases_to_folder_copy_move :
    ∀ (st : TabState) (fn : String) (phrases : List Entry) (fol : Folder),
      lookupFolder st.folders fn = some fol →
      ((on_phrases_to_folder st fn phrases false).data = st.data
        ∧ ∃ fol2,
            lookupFolder (on_phrases_to_folder st fn phrases false).folders fn = some fol2
            ∧ ∀ q ∈ phrases, q ∈ fol2.phrases)
      ∧ ((∃ fol2,
            lookupFolder (on_phrases_to_folder st fn phrases true).folders fn = some fol2
            ∧ ∀ q ∈ phrases, q ∈ fol2.phrases)
        ∧ ∀ e : Entry,
            e ∈ (on_phrases_to_folder st fn phrases true).data ↔
              e ∈ st.data ∧ ∀ q ∈ phrases, pyStrip (pyLower e.1) ≠ pyStrip (pyLower q.1)) := by
  intro st fn phrases fol h
  obtain ⟨fol2, h2, _, hqs⟩ := add_phrases_fold_mem fn phrases st.folders fol h
  refine ⟨⟨rfl, fol2, h2, hqs⟩, ⟨fol2, h2, hqs⟩, ?_⟩
  intro e
  rw [show (on_phrases_to_folder st fn phrases true).data
      = st.data.filter (fun d =>
          !(phrases.map (fun q => pyStrip (pyLower q.1))).contains (pyStrip (pyLower d.1)))
    from rfl]
  rw [List.mem_filter]
  exact and_congr_right fun _ =>
    not_contains_moved_key_iff phrases (pyStrip (pyLower e.1))

/-- C7 witness: with one folder `"A"` and data `[("x", 1), ("y", 2)]`,
copying `("x", 1)` leaves the data untouched. -/
theorem phrases_to_folder_copy_move_witness :
    (on_phrases_to_folder
        { folders := [("A", { name := "A", phrases := [] })], data := [("x", 1), ("y", 2)] }
        "A" [("x", 1)] false).data = [("x", 1), ("y", 2)] :=
  (phrases_to_folder_copy_move
      { folders := [("A", { name := "A", phrases := [] })], data := [("x", 1), ("y", 2)] }
      "A" [("x", 1)] { name := "A", phrases := [] } (by decide)).1.1

/-- Helper: Python's `max(_, key=len)` fold yields the first element of
the scanned list attaining the maximal length. -/
theorem pyMaxByLen_firstMax (t : List String) :
    ∀ b, IsFirstMax (b :: t) (PhraseProcessor.pyMaxByLen b t) := by
  induction t with
  | nil =>
    intro b
    exact ⟨[], [], rfl, by simp, by simp⟩
  | cons k t ih =>
    intro b
    by_cases hbk : b.length < k.length
    · have hfold : PhraseProcessor.pyMaxByLen b (k :: t) = PhraseProcessor.pyMaxByLen k t := by
        simp [PhraseProcessor.pyMaxByLen, hbk]
      rw [hfold]
      obtain ⟨p, s, heq, hp, hs⟩ := ih k
      have hk : k.length ≤ (PhraseProcessor.pyMaxByLen k t).length := by
        cases p with
        | nil =>
          simp only [List.nil_append] at heq
          injection heq with h1 h2
          exact le_of_eq (congrArg String.length h1)
        | cons a p2 =>
          simp only [List.cons_append] at heq
          injection heq with h1 h2
          have := hp a (by simp)
          rw [← h1] at this
          exact le_of_lt this
      refine ⟨b :: p, s, by simp [heq], ?_, hs⟩
      intro y hy
      rcases List.mem_cons.mp hy with hy | hy
      · subst hy
        exact lt_of_lt_of_le hbk hk
      · exact hp y hy
    · have hfold : PhraseProcessor.pyMaxByLen b (k :: t) = PhraseProcessor.pyMaxByLen b t := by
        simp [PhraseProcessor.pyMaxByLen, hbk]
      rw [hfold]
      obtain ⟨p, s, heq, hp, hs⟩ := ih b
      cases p with
      | nil =>
        simp only [List.nil_append] at heq
        injection heq with h1 h2
        refine ⟨[], k :: t, by rw [List.nil_append, ← h1], by simp, ?_⟩
        intro y hy
        rcases List.mem_cons.mp hy with hy | hy
        · subst hy
          exact le_trans (Nat.le_of_not_lt hbk) (le_of_eq (congrArg String.length h1))
        · rw [h2] at hy
          exact hs y hy
      | cons a p2 =>
        simp only [List.cons_append] at heq
        injection heq with h1 h2
        have hblt : b.length < (PhraseProcessor.pyMaxByLen b t).length := by
          have := hp a (by simp)
          rw [← h1] at this
          exact this
        refine ⟨b :: k :: p2, s, ?_, ?_, hs⟩
        · conv_lhs => rw [h2]
          simp
        intro y hy
        rcases List.mem_cons.mp hy with hy | hy
        · subst hy; exact hblt
        · rcases List.mem_cons.mp hy with hy | hy
          · subst hy
            exact lt_of_le_of_lt (Nat.le_of_not_lt hbk) hblt
          · exact hp y (by simp [hy])

/-- Helper: splitting a list at the first occurrence of a member. -/
theorem splitAtFirstOcc {x : String} :
    ∀ {l : List String}, x ∈ l → ∃ p s, l = p ++ x :: s ∧ x ∉ p := by
  intro l
  induction l with
  | nil => intro h; simp at h
  | cons a l ih =>
    intro h
    by_cases hax : a = x
    · exact ⟨[], l, by simp [hax], by simp⟩
    · have hx : x ∈ l := by
        rcases List.mem_cons.mp h with h | h
        · exact absurd h.symm hax
        · exact h
      obtain ⟨p, s, heq, hnp⟩ := ih hx
      exact ⟨a :: p, s, by simp [heq], by
        simp only [List.mem_cons, not_or]
        exact ⟨fun hxa => hax hxa.symm, hnp⟩⟩

/-- Helper: a split at an element that occurs nowhere else is unique. -/
theorem splitUnique {x : String} :
    ∀ (p1 : List String) {s1 : List String} (p2 : List String) {s2 : List String},
      p1 ++ x :: s1 = p2 ++ x :: s2 → x ∉ p1 → x ∉ s1 → p1 = p2 ∧ s1 = s2 := by
  intro p1
  induction p1 with
  | nil =>
    intro s1 p2 s2 heq hnp hns
    cases p2 with
    | nil =>
      simp only [List.nil_append, List.cons.injEq] at heq
      exact ⟨rfl, heq.2⟩
    | cons b p2 =>
      simp only [List.nil_append, List.cons_append, List.cons.injEq] at heq
      exact absurd (heq.2 ▸ List.mem_append_right p2 (List.mem_cons_self x s2)) hns
  | cons a p1 ih =>
    intro s1 p2 s2 heq hnp hns
    cases p2 with
    | nil =>
      simp only [List.cons_append, List.nil_append, List.cons.injEq] at heq
      exact absurd (by simp [heq.1]) hnp
    | cons b p2 =>
      simp only [List.cons_append, List.cons.injEq] at heq
      have hnp1 : x ∉ p1 := fun h => hnp (List.mem_cons_of_mem a h)
      obtain ⟨h1, h2⟩ := ih p2 heq.2 hnp1 hns
      exact ⟨by rw [heq.1, h1], h2⟩

/-- Helper: membership in a dict-key fold is membership in the
accumulator or in the scanned tokens. -/
theorem mem_foldl_insertKey :
    ∀ (l acc : List String) (x : String),
      x ∈ l.foldl PhraseProcessor.insertKey acc ↔ x ∈ acc ∨ x ∈ l := by
  intro l
  induction l with
  | nil => intro acc x; simp
  | cons w l ih =>
    intro acc x
    rw [List.foldl_cons, ih]
    by_cases hw : w ∈ acc
    · simp only [PhraseProcessor.insertKey, hw, if_pos, List.mem_cons]
      constructor
      · rintro (h | h)
        · exact Or.inl h
        · exact Or.inr (Or.inr h)
      · rintro (h | h | h)
        · exact Or.inl h
        · subst h; exact Or.inl hw
        · exact Or.inr h
    · simp [PhraseProcessor.insertKey, hw]
      tauto

/-- Helper: a dict-key fold only ever appends new keys after the
accumulator. -/
theorem foldl_insertKey_extend :
    ∀ (l acc : List String),
      ∃ s, l.foldl PhraseProcessor.insertKey acc = acc ++ s ∧ ∀ z ∈ s, z ∉ acc := by
  intro l
  induction l with
  | nil => intro acc; exact ⟨[], by simp, by simp⟩
  | cons w l ih =>
    intro acc
    by_cases hw : w ∈ acc
    · rw [List.foldl_cons]
      simpa [PhraseProcessor.insertKey, hw] using ih acc
    · rw [List.foldl_cons]
      obtain ⟨s, hs, hns⟩ := ih (acc ++ [w])
      refine ⟨w :: s, ?_, ?_⟩
      · simp only [PhraseProcessor.insertKey, hw, if_neg, not_false_iff]
        rw [hs]
        simp
      · intro z hz
        rcases List.mem_cons.mp hz with hz | hz
        · exact hz ▸ hw
        · exact fun hza => (hns z hz) (List.mem_append_left [w] hza)

/-- Helper: splitting the input token list at the first occurrence of
`x` splits the dict keys right after the keys of the left part. -/
theorem dictKeys_split (p s : List String) (x : String) (hx : x ∉ p) :
    ∃ S, PhraseProcessor.dictKeys (p ++ x :: s)
        = PhraseProcessor.dictKeys p ++ x :: S
      ∧ x ∉ PhraseProcessor.dictKeys p ∧ x ∉ S
      ∧ (∀ y ∈ PhraseProcessor.dictKeys p, y ∈ p) ∧ (∀ z ∈ S, z ∈ s) := by
  have hxA : x ∉ PhraseProcessor.dictKeys p := by
    intro h
    rcases (mem_foldl_insertKey p [] x).mp h with h | h
    · simp at h
    · exact hx h
  have hstep : PhraseProcessor.dictKeys (p ++ x :: s)
      = s.foldl PhraseProcessor.insertKey (PhraseProcessor.dictKeys p ++ [x]) := by
    have hxA2 : x ∉ List.foldl PhraseProcessor.insertKey [] p := hxA
    unfold PhraseProcessor.dictKeys
    rw [List.foldl_append, List.foldl_cons]
    congr 1
    simp [PhraseProcessor.insertKey, hxA2]
  obtain ⟨S, hS, hnS⟩ := foldl_insertKey_extend s (PhraseProcessor.dictKeys p ++ [x])
  refine ⟨S, ?_, hxA, ?_, ?_, ?_⟩
  · rw [hstep, hS]
    simp
  · intro hxS
    exact (hnS x hxS) (List.mem_append_right _ (by simp))
  · intro y hy
    rcases (mem_foldl_insertKey p [] y).mp hy with h | h
    · simp at h
    · exact h
  · intro z hz
    have hzf : z ∈ s.foldl PhraseProcessor.insertKey (PhraseProcessor.dictKeys p ++ [x]) := by
      rw [hS]
      exact List.mem_append_right _ hz
    rcases (mem_foldl_insertKey s _ z).mp hzf with h | h
    · exact absurd h (hnS z hz)
    · exact h

/-- Helper: the max-length fold is bounded below by its start value. -/
theorem foldl_maxlen_init_le :
    ∀ (l : List String) (a : Nat), a ≤ l.foldl (fun m k => max m k.length) a := by
  intro l
  induction l with
  | nil => intro a; exact le_refl a
  | cons w l ih =>
    intro a
    exact le_trans (le_max_left a w.length) (ih (max a w.length))

/-- Helper: every scanned token bounds the max-length fold from below. -/
theorem le_foldl_maxlen :
    ∀ (l : List String) (y : String), y ∈ l → ∀ a, y.length ≤ l.foldl (fun m k => max m k.length) a := by
  intro l
  induction l with
  | nil => intro y hy; simp at hy
  | cons w l ih =>
    intro y hy a
    rcases List.mem_cons.mp hy with hy | hy
    · subst hy
      exact le_trans (le_max_right a y.length) (foldl_maxlen_init_le l _)
    · exact ih y hy _

/-- Helper: the max-length fold respects a common upper bound. -/
theorem foldl_maxlen_le :
    ∀ (l : List String) (a n : Nat), a ≤ n → (∀ y ∈ l, y.length ≤ n) →
      l.foldl (fun m k => max m k.length) a ≤ n := by
  intro l
  induction l with
  | nil => intro a n ha _; exact ha
  | cons w l ih =>
    intro a n ha hl
    exact ih _ n (max_le ha (hl w (by simp))) (fun y hy => hl y (by simp [hy]))

/-- Helper: `find?` over a split list whose left part fails the predicate
returns the split point when it satisfies it. -/
theorem find_first_true (pred : String → Bool) :
    ∀ (p : List String) (x : String) (s : List String),
      (∀ y ∈ p, pred y = false) → pred x = true →
      (p ++ x :: s).find? pred = some x := by
  intro p
  induction p with
  | nil =>
    intro x s _ hx
    simp [List.find?_cons, hx]
  | cons a p ih =>
    intro x s hp hx
    rw [List.cons_append, List.find?_cons, hp a (by simp)]
    exact ih x s (fun y hy => hp y (by simp [hy])) hx

/-- Helper: the source's dict-insertion-plus-max key selection equals the
spec's first-longest-token rule, for every phrase. -/
theorem groupKeyOf_eq_specGroupKey (ph : String) :
    PhraseProcessor.groupKeyOf ph = specGroupKey ph := by
  unfold PhraseProcessor.groupKeyOf specGroupKey
  cases hdk : PhraseProcessor.dictKeys (PhraseProcessor.qualTokens ph) with
  | nil =>
    have htoks : PhraseProcessor.qualTokens ph = [] := by
      cases htq : PhraseProcessor.qualTokens ph with
      | nil => rfl
      | cons w t =>
        exfalso
        have hw : w ∈ PhraseProcessor.dictKeys (PhraseProcessor.qualTokens ph) := by
          rw [htq]
          exact (mem_foldl_insertKey (w :: t) [] w).mpr (Or.inr (by simp))
        rw [hdk] at hw
        simp at hw
    rw [htoks]
    simp
  | cons k ks =>
    obtain ⟨P, Q, heqPQ, hP, hQ⟩ := pyMaxByLen_firstMax ks k
    have hxtoks : PhraseProcessor.pyMaxByLen k ks ∈ PhraseProcessor.qualTokens ph := by
      have hxdict : PhraseProcessor.pyMaxByLen k ks
          ∈ PhraseProcessor.dictKeys (PhraseProcessor.qualTokens ph) := by
        rw [hdk, heqPQ]
        exact List.mem_append_right _ (by simp)
      rcases (mem_foldl_insertKey _ [] _).mp hxdict with h | h
      · simp at h
      · exact h
    obtain ⟨p, s, heqps, hxp⟩ := splitAtFirstOcc hxtoks
    obtain ⟨S, hDK, hxA, hxS, hAp, hSs⟩ := dictKeys_split p s _ hxp
    have heq2 : PhraseProcessor.dictKeys p ++ PhraseProcessor.pyMaxByLen k ks :: S
        = P ++ PhraseProcessor.pyMaxByLen k ks :: Q := by
      rw [← hDK, ← heqps, hdk, heqPQ]
    obtain ⟨hPeq, hQeq⟩ := splitUnique (PhraseProcessor.dictKeys p) P heq2 hxA hxS
    have hub : ∀ y ∈ PhraseProcessor.qualTokens ph,
        y.length ≤ (PhraseProcessor.pyMaxByLen k ks).length := by
      intro y hy
      have hyd : y ∈ PhraseProcessor.dictKeys (PhraseProcessor.qualTokens ph) :=
        (mem_foldl_insertKey _ [] y).mpr (Or.inr hy)
      rw [hdk, heqPQ] at hyd
      rcases List.mem_append.mp hyd with h | h
      · exact le_of_lt (hP y h)
      · rcases List.mem_cons.mp h with h | h
        · exact le_of_eq (congrArg String.length h)
        · exact hQ y h
    have hmax : maxLenOf (PhraseProcessor.qualTokens ph)
        = (PhraseProcessor.pyMaxByLen k ks).length := by
      unfold maxLenOf
      exact le_antisymm (foldl_maxlen_le _ 0 _ (Nat.zero_le _) hub)
        (le_foldl_maxlen _ _ hxtoks 0)
    have hplt : ∀ y ∈ p, y.length < (PhraseProcessor.pyMaxByLen k ks).length := by
      intro y hy
      have hyA : y ∈ PhraseProcessor.dictKeys p :=
        (mem_foldl_insertKey p [] y).mpr (Or.inr hy)
      rw [hPeq] at hyA
      exact hP y hyA
    rw [hmax, heqps]
    exact (find_first_true _ p _ s
      (fun y hy => by
        simp only [beq_eq_false_iff_ne, ne_eq]
        exact Nat.ne_of_lt (hplt y hy))
      (by simp)).symm

/-- Helper: an entry appended to a bucket is a member of that bucket. -/
theorem mem_lookupGroup_addToGroup_self :
    ∀ (g : List (String × List Entry)) (k : String) (e : Entry),
      e ∈ PhraseProcessor.lookupGroup (PhraseProcessor.addToGroup g k e) k := by
  intro g
  induction g with
  | nil =>
    intro k e
    simp [PhraseProcessor.addToGroup, PhraseProcessor.lookupGroup]
  | cons kv g ih =>
    intro k e
    by_cases h : kv.1 = k
    · simp [PhraseProcessor.addToGroup, PhraseProcessor.lookupGroup, h]
    · simp [PhraseProcessor.addToGroup, PhraseProcessor.lookupGroup, h, ih]

/-- Helper: appending an entry to some bucket keeps all existing bucket
members. -/
theorem mem_lookupGroup_addToGroup_mono :
    ∀ (g : List (String × List Entry)) (k k2 : String) (e2 e : Entry),
      e ∈ PhraseProcessor.lookupGroup g k →
      e ∈ PhraseProcessor.lookupGroup (PhraseProcessor.addToGroup g k2 e2) k := by
  intro g
  induction g with
  | nil =>
    intro k k2 e2 e h
    simp [PhraseProcessor.lookupGroup] at h
  | cons kv g ih =>
    intro k k2 e2 e h
    by_cases h2 : kv.1 = k2
    · rw [show PhraseProcessor.addToGroup (kv :: g) k2 e2 = (kv.1, kv.2 ++ [e2]) :: g from by
        simp [PhraseProcessor.addToGroup, h2]]
      by_cases hk : kv.1 = k
      · rw [show PhraseProcessor.lookupGroup ((kv.1, kv.2 ++ [e2]) :: g) k = kv.2 ++ [e2] from by
          simp [PhraseProcessor.lookupGroup, hk]]
        have hh : e ∈ kv.2 := by simpa [PhraseProcessor.lookupGroup, hk] using h
        exact List.mem_append_left _ hh
      · rw [show PhraseProcessor.lookupGroup ((kv.1, kv.2 ++ [e2]) :: g) k
            = PhraseProcessor.lookupGroup g k from by simp [PhraseProcessor.lookupGroup, hk]]
        simpa [PhraseProcessor.lookupGroup, hk] using h
    · rw [show PhraseProcessor.addToGroup (kv :: g) k2 e2
          = kv :: PhraseProcessor.addToGroup g k2 e2 from by
        simp [PhraseProcessor.addToGroup, h2]]
      by_cases hk : kv.1 = k
      · have hh : e ∈ kv.2 := by simpa [PhraseProcessor.lookupGroup, hk] using h
        simpa [PhraseProcessor.lookupGroup, hk] using hh
      · have hh : e ∈ PhraseProcessor.lookupGroup g k := by
          simpa [PhraseProcessor.lookupGroup, hk] using h
        simpa [PhraseProcessor.lookupGroup, hk] using ih k k2 e2 e hh

/-- Helper: one grouping step keeps all existing bucket members. -/
theorem mem_lookupGroup_groupStep_mono (g : List (String × List Entry)) (e2 e : Entry)
    (k : String) (h : e ∈ PhraseProcessor.lookupGroup g k) :
    e ∈ PhraseProcessor.lookupGroup (PhraseProcessor.groupStep g e2) k := by
  unfold PhraseProcessor.groupStep
  cases PhraseProcessor.groupKeyOf e2.1 <;>
    exact mem_lookupGroup_addToGroup_mono _ _ _ _ _ h

/-- Helper: the grouping fold keeps all existing bucket members. -/
theorem mem_lookupGroup_foldl_acc :
    ∀ (ps : List Entry) (g : List (String × List Entry)) (e : Entry) (k : String),
      e ∈ PhraseProcessor.lookupGroup g k →
      e ∈ PhraseProcessor.lookupGroup (ps.foldl PhraseProcessor.groupStep g) k := by
  intro ps
  induction ps with
  | nil => intro g e k h; simpa using h
  | cons q ps ih =>
    intro g e k h
    rw [List.foldl_cons]
    exact ih _ e k (mem_lookupGroup_groupStep_mono g q e k h)

/-- Helper: every processed entry lands in the bucket named by its group
key (or the reserved bucket). -/
theorem mem_group_phrases_bucket :
    ∀ (ps : List Entry) (g : List (String × List Entry)) (e : Entry), e ∈ ps →
      e ∈ PhraseProcessor.lookupGroup (ps.foldl PhraseProcessor.groupStep g)
        ((PhraseProcessor.groupKeyOf e.1).getD "другое") := by
  intro ps
  induction ps with
  | nil => intro g e h; simp at h
  | cons q ps ih =>
    intro g e h
    rw [List.foldl_cons]
    rcases List.mem_cons.mp h with h | h
    · subst h
      apply mem_lookupGroup_foldl_acc
      unfold PhraseProcessor.groupStep
      cases hk : PhraseProcessor.groupKeyOf e.1 <;> simp only [hk, Option.getD_some,
        Option.getD_none] <;> exact mem_lookupGroup_addToGroup_self g _ e
    · exact ih _ e h

/-- C4: `group_phrases` assigns each entry the group key given by the
spec rule — tokenize the lowercased text on whitespace, keep tokens
longer than 3 characters, pick the longest with ties broken by the token
occurring first in the phrase — and puts the entry in that key's bucket;
entries with no qualifying token all land in the one reserved `"другое"`
bucket. -/
theorem group_phrases_key_rule :
    ∀ (ps : List Entry) (p : String) (f : Nat), (p, f) ∈ ps →
      PhraseProcessor.groupKeyOf p = specGroupKey p
      ∧ (p, f) ∈ PhraseProcessor.lookupGroup (PhraseProcessor.group_phrases ps)
          ((specGroupKey p).getD "другое") := by
  intro ps p f hmem
  refine ⟨groupKeyOf_eq_specGroupKey p, ?_⟩
  rw [← groupKeyOf_eq_specGroupKey p]
  exact mem_group_phrases_bucket ps [] (p, f) hmem

/-- C4 witness: `"white house"` has two qualifying tokens of length 5 and
groups under the first-occurring `"white"`. -/
theorem group_phrases_key_rule_witness :
    specGroupKey "white house" = some "white"
    ∧ (("white house", 2) : Entry) ∈ PhraseProcessor.lookupGroup
        (PhraseProcessor.group_phrases [("white house", 2)])
        ((specGroupKey "white house").getD "другое") :=
  ⟨by decide, (group_phrases_key_rule [("white house", 2)] "white house" 2 (by decide)).2⟩

end PhraseTools
